import Mathlib

/-!
Verification of the Qwen TTS frontend/backend core against its
natural-language specification.

Shallow embedding conventions:
* `AudioHistoryDB` embeds `src/frontend/src/audioHistoryDB.ts`: the IndexedDB
  object store is a list of records keyed by `id`; `getAllFromIndex` on the
  `by-timestamp` index is modelled as sorting ascending by `timestamp`.
* `UseAudioHistory` embeds `src/frontend/src/hooks/useAudioHistory.ts`
  (object-URL lifecycle of `getAudioUrl` and the unmount cleanup).
* `UseStreamingAudio` embeds `src/frontend/src/hooks/useStreamingAudio.ts`
  (`stopStream`, `processWavData`, `playNextBuffer`) as a state record plus
  an event trace.
* `BatchOrchestrator` and `AdmissionLimiter` model the backend batch endpoint
  and the shared `asyncio.Semaphore(2)`; `backend/main.py` is not in the
  source tree (only its wire types, plans and e2e tests are), so those two are
  modelled from the spec, as marked in their doc comments.
-/

namespace AudioHistoryDB

/-- A record of the `audio-history` object store (`AudioHistoryItem` in
`types.ts`); only the key (`id`) and the index key (`timestamp`) matter for
the cache logic, the remaining fields ride along as opaque payload. -/
structure AudioHistoryItem where
  id : String
  timestamp : Nat
deriving DecidableEq, Repr

/-- `MAX_ENTRIES` from `audioHistoryDB.ts`. -/
def MAX_ENTRIES : Nat := 30

/-- Order used by the `by-timestamp` IndexedDB index. -/
def byTimestamp (a b : AudioHistoryItem) : Prop :=
  a.timestamp ≤ b.timestamp

instance : DecidableRel byTimestamp :=
  fun a b => Nat.decLe a.timestamp b.timestamp

instance : IsTotal AudioHistoryItem byTimestamp :=
  ⟨fun a b => Nat.le_total a.timestamp b.timestamp⟩

instance : IsTrans AudioHistoryItem byTimestamp :=
  ⟨fun _ _ _ hab hbc => Nat.le_trans hab hbc⟩

/-- `db.getAllFromIndex(STORE_NAME, 'by-timestamp')`: the records sorted
ascending by the index key. -/
def sortByTimestamp (store : List AudioHistoryItem) : List AudioHistoryItem :=
  List.insertionSort byTimestamp store

/-- `getAll` from `audioHistoryDB.ts`: read the `by-timestamp` index and
reverse, so the most recent entry comes first. -/
def getAll (store : List AudioHistoryItem) : List AudioHistoryItem :=
  (sortByTimestamp store).reverse

/-- `db.delete(STORE_NAME, i)`: remove the record whose key equals `i`. -/
def delete (store : List AudioHistoryItem) (i : String) : List AudioHistoryItem :=
  store.filter (fun e => e.id ≠ i)

/-- `db.put(STORE_NAME, item)`: insert, replacing any record with the same
key. -/
def put (store : List AudioHistoryItem) (item : AudioHistoryItem) : List AudioHistoryItem :=
  delete store item.id ++ [item]

/-- `db.clear(STORE_NAME)`. -/
def clear (_store : List AudioHistoryItem) : List AudioHistoryItem := []

/-- The happy path of `add` from `audioHistoryDB.ts`: count, evict the oldest
`count - MAX_ENTRIES + 1` entries when at or above capacity, then `put`. -/
def add (store : List AudioHistoryItem) (item : AudioHistoryItem) : List AudioHistoryItem :=
  let count := store.length
  let store1 :=
    if MAX_ENTRIES ≤ count then
      let allItems := sortByTimestamp store
      let toRemove := allItems.take (count - MAX_ENTRIES + 1)
      toRemove.foldl (fun acc oldItem => delete acc oldItem.id) store
    else store
  put store1 item

/-- Failures the underlying IndexedDB `put` can signal
(`DOMException.name`). -/
inductive DomErr where
  | quotaExceeded
  | other (name : String)
deriving DecidableEq, Repr

/-- What `add` surfaces to its caller on failure: either the fresh
`Error('Storage quota exceeded. History cleared.')` or the re-thrown raw
exception. -/
inductive AddErr where
  | quotaMessage
  | raw (e : DomErr)
deriving DecidableEq, Repr

/-- `add` from `audioHistoryDB.ts` with its catch-block, against an oracle
`attempt` giving the outcome of the n-th `db.put` call (`none` = success).
Returns the outcome, the resulting store, and how many `put` attempts the
code performed. On `QuotaExceededError` the code runs `this.clear()` and
throws the distinct quota message without retrying the `put`; any other
exception is re-thrown raw. -/
def addFallible (store : List AudioHistoryItem) (item : AudioHistoryItem)
    (attempt : Nat → Option DomErr) :
    Except AddErr Unit × List AudioHistoryItem × Nat :=
  let count := store.length
  let store1 :=
    if MAX_ENTRIES ≤ count then
      let allItems := sortByTimestamp store
      let toRemove := allItems.take (count - MAX_ENTRIES + 1)
      toRemove.foldl (fun acc oldItem => delete acc oldItem.id) store
    else store
  match attempt 0 with
  | none => (Except.ok (), put store1 item, 1)
  | some DomErr.quotaExceeded => (Except.error AddErr.quotaMessage, [], 1)
  | some e => (Except.error (AddErr.raw e), store1, 1)

end AudioHistoryDB

namespace UseAudioHistory

/-- `sub` begins `s` (character-list view of JS string comparison). -/
def startsWithChars : List Char → List Char → Bool
  | [], _ => true
  | _ :: _, [] => false
  | a :: as, b :: bs => a == b && startsWithChars as bs

/-- `sub` occurs somewhere inside `s`. -/
def occursIn (sub : List Char) : List Char → Bool
  | [] => startsWithChars sub []
  | c :: rest => startsWithChars sub (c :: rest) || occursIn sub rest

/-- JS `s.includes(sub)`. -/
def jsIncludes (s sub : String) : Bool :=
  occursIn sub.data s.data

/-- Model of `URL.createObjectURL`: an opaque, never-repeating `blob:` URL;
the n-th call yields a URL of length `11 + n`, which keeps distinct calls
distinct. -/
def mkUrl (n : Nat) : String :=
  "blob:local/" ++ String.mk (List.replicate n 'u')

/-- The slice of an `AudioHistoryItem` that `getAudioUrl` inspects: its `id`
and whether `item.audioBlob` is set. -/
structure AudioItem where
  id : String
  hasBlob : Bool
deriving DecidableEq, Repr

/-- Mutable state of the `useAudioHistory` hook relevant to object URLs:
`createdUrls` is `createdUrlsRef.current` (a `Set` kept in insertion order),
`nextUrl` feeds `mkUrl`, and `revoked` / `allCreated` log every
`URL.revokeObjectURL` / `URL.createObjectURL` call. -/
structure UrlState where
  createdUrls : List String
  nextUrl : Nat
  revoked : List String
  allCreated : List String
deriving DecidableEq, Repr

/-- Hook state right after mount. -/
def initState : UrlState :=
  { createdUrls := [], nextUrl := 0, revoked := [], allCreated := [] }

/-- The guarded block of `getAudioUrl` (`useAudioHistory.ts` lines 96-102):
if `item.id` is truthy and `createdUrlsRef.current.has(item.id)`, look for a
tracked URL containing `item.id` and, when found, revoke it and drop it from
the set. -/
def revokeExistingFor (item : AudioItem) (st : UrlState) : UrlState :=
  if (item.id != "") && st.createdUrls.contains item.id then
    match st.createdUrls.find? (fun url => jsIncludes url item.id) with
    | some existingUrl =>
        { st with createdUrls := st.createdUrls.erase existingUrl,
                  revoked := st.revoked ++ [existingUrl] }
    | none => st
  else st

/-- `URL.createObjectURL(item.audioBlob)` followed by
`createdUrlsRef.current.add(url)` (`useAudioHistory.ts` lines 104-105). -/
def trackNewUrl (st : UrlState) : String × UrlState :=
  let url := mkUrl st.nextUrl
  (url,
    { st with createdUrls := st.createdUrls ++ [url],
              nextUrl := st.nextUrl + 1,
              allCreated := st.allCreated ++ [url] })

/-- `getAudioUrl` from `useAudioHistory.ts`: return `null` without a blob;
otherwise run the revoke-any-existing-URL block, then create and track a
fresh object URL. -/
def getAudioUrl (item : AudioItem) (st : UrlState) : Option String × UrlState :=
  if !item.hasBlob then (none, st)
  else
    let st1 := revokeExistingFor item st
    let r := trackNewUrl st1
    (some r.1, r.2)

/-- A sequence of `getAudioUrl` calls over the component's lifetime. -/
def runCalls (items : List AudioItem) : UrlState :=
  items.foldl (fun st it => (getAudioUrl it st).2) initState

/-- The unmount cleanup of `useAudioHistory.ts`: revoke every tracked URL and
clear the set. -/
def unmount (st : UrlState) : UrlState :=
  { st with createdUrls := [], revoked := st.revoked ++ st.createdUrls }

/-- Lifecycle invariant of the hook state: revocations so far plus the URLs
still tracked account, as a multiset, for exactly the URLs ever created; no
URL was ever created twice; and every created URL came from an earlier
`mkUrl` counter value. -/
def urlInv (st : UrlState) : Prop :=
  List.Perm (st.revoked ++ st.createdUrls) st.allCreated ∧
  st.allCreated.Nodup ∧
  ∀ u ∈ st.allCreated, ∃ k, k < st.nextUrl ∧ u = mkUrl k

end UseAudioHistory

namespace UseStreamingAudio

/-- The refs and React state of `useStreamingAudio.ts`. Ref-holding objects
(`AudioBufferSourceNode`, stream reader, `AbortController`) are identified by
numeric handles; `bufferQueue` holds decoded sample buffers. -/
structure StreamState where
  isLoading : Bool
  isPlaying : Bool
  error : Option String
  sourceNode : Option Nat
  streamReader : Option Nat
  abortController : Option Nat
  bufferQueue : List (List Nat)
  isPlayingRef : Bool
deriving DecidableEq, Repr

/-- Side effects `stopStream` performs on the objects it holds. -/
inductive StopAction where
  | haltSource (id : Nat)
  | cancelReader (id : Nat)
  | abortFetch
deriving DecidableEq, Repr

/-- `stopStream` from `useStreamingAudio.ts`: clear `isPlayingRef`, stop and
drop the source node, cancel and drop the reader, abort and drop the
controller, empty the queue, clear `isPlaying` and `isLoading`. Returns the
new state and the actions performed, in source order. -/
def stopStream (s : StreamState) : StreamState × List StopAction :=
  let haltActs := match s.sourceNode with
    | some n => [StopAction.haltSource n]
    | none => []
  let cancelActs := match s.streamReader with
    | some r => [StopAction.cancelReader r]
    | none => []
  let abortActs := match s.abortController with
    | some _ => [StopAction.abortFetch]
    | none => []
  ({ s with
      isPlayingRef := false
      sourceNode := none
      streamReader := none
      abortController := none
      bufferQueue := []
      isPlaying := false
      isLoading := false },
   haltActs ++ cancelActs ++ abortActs)

/-- The buffer counts as idle when it is neither loading nor playing and no
playback unit is queued. -/
def isIdle (s : StreamState) : Bool :=
  !s.isLoading && !s.isPlaying && s.bufferQueue.isEmpty

/-- Observable events of `processWavData` / `playNextBuffer`: a `reader.read()`
that returned a chunk, the `done` read, a `decodeAudioData` call, and a
`source.start()` on a decoded buffer. -/
inductive StreamEv where
  | readChunk (bytes : List Nat)
  | readDone
  | decode (bytes : List Nat)
  | render (bytes : List Nat)
deriving DecidableEq, Repr

/-- `processWavData` from `useStreamingAudio.ts`, as the event trace it
produces on a stream that delivers `chunks` and then ends: the `while` loop
reads every chunk into `chunks[]` until `done`, the chunks are combined into
one `wavData` buffer, decoded with a single `decodeAudioData` call, the one
resulting buffer is pushed onto the queue, and `playNextBuffer` then starts
rendering it (`isPlayingRef` was false). -/
def processWavData (chunks : List (List Nat)) : List StreamEv :=
  let readEvents := chunks.map StreamEv.readChunk ++ [StreamEv.readDone]
  let wavData := chunks.flatten
  readEvents ++ [StreamEv.decode wavData, StreamEv.render wavData]

/-- Recognizer for render events. -/
def isRender : StreamEv → Bool
  | StreamEv.render _ => true
  | _ => false

/-- Recognizer for chunk-arrival events. -/
def isRead : StreamEv → Bool
  | StreamEv.readChunk _ => true
  | _ => false

end UseStreamingAudio

namespace BatchOrchestrator

/-- `BatchTTSResult` from `types.ts`: one per-job outcome. -/
structure BatchTTSResult where
  success : Bool
  audio : Option String
  error : Option String
  sample_rate : Option Nat
deriving DecidableEq, Repr

/-- `BatchTTSResponse` from `types.ts`. -/
structure BatchTTSResponse where
  results : List BatchTTSResult
  completed_count : Nat
  failed_count : Nat
deriving DecidableEq, Repr

/-- Modelled from the spec: the `/tts/batch` handler of `backend/main.py` is
absent from the source tree (only its wire types in `types.ts`, the plans in
`docs/` and the e2e tests reference it). Per §4.3 a completing job writes its
outcome into the slot of its input index; `exec` is the per-job execution
(engine call, timeout conversion and exception capture included), `i` the
input index of the job that completed. -/
def applyCompletion (exec : α → BatchTTSResult) (jobs : List α)
    (slots : List (Option BatchTTSResult)) (i : Nat) :
    List (Option BatchTTSResult) :=
  match jobs[i]? with
  | some job => slots.set i (some (exec job))
  | none => slots

/-- Modelled from the spec: jobs complete in the arbitrary order `order`
(indices into the input list); outcomes accumulate in input-indexed slots. -/
def runOrder (exec : α → BatchTTSResult) (jobs : List α) (order : List Nat) :
    List (Option BatchTTSResult) :=
  order.foldl (applyCompletion exec jobs) (List.replicate jobs.length none)

/-- Modelled from the spec: `run(jobs, size ≤ 10)` of §4.3. A batch of size 0
or above 10 is rejected wholesale before any job is admitted; otherwise the
ordered outcome list is assembled from the completion slots and
`completed_count` / `failed_count` aggregate the successes and failures. -/
def runBatch (exec : α → BatchTTSResult) (jobs : List α) (order : List Nat) :
    Option BatchTTSResponse :=
  if jobs.length < 1 ∨ 10 < jobs.length then none
  else
    let results := (runOrder exec jobs order).filterMap id
    some
      { results := results
        completed_count := results.countP (fun r => r.success)
        failed_count := results.countP (fun r => !r.success) }

end BatchOrchestrator

namespace AdmissionLimiter

/-- The admission limit: `asyncio.Semaphore(2)`. -/
def K : Nat := 2

/-- Which path an engine invocation belongs to. -/
inductive Path where
  | batch
  | stream
deriving DecidableEq, Repr

/-- Semaphore events: an engine invocation of either path entering
(`acquire`) or leaving (`release`) the limiter. -/
inductive SemEv where
  | acquire (p : Path)
  | release (p : Path)
deriving DecidableEq, Repr

/-- Modelled from the spec: `backend/main.py` (absent from the source tree)
gates every engine call of both `/tts/stream` and `/tts/batch` with one shared
`asyncio.Semaphore(2)`; `n` counts permits held, i.e. in-flight engine
invocations across both paths. An acquire is granted only while fewer than
`K` permits are held; otherwise the task blocks and no state changes. -/
def semStep (n : Nat) : SemEv → Option Nat
  | SemEv.acquire _ => if n < K then some (n + 1) else none
  | SemEv.release _ => if 0 < n then some (n - 1) else none

/-- Every in-flight count realized while executing `evs` from count `n`
(a blocked event ends the execution with no further states). -/
def semStates (n : Nat) : List SemEv → List Nat
  | [] => [n]
  | e :: es =>
    match semStep n e with
    | some n1 => n :: semStates n1 es
    | none => [n]

end AdmissionLimiter

namespace AudioHistoryDB

theorem sortByTimestamp_perm (l : List AudioHistoryItem) :
    List.Perm (sortByTimestamp l) l :=
  List.perm_insertionSort byTimestamp l

theorem sortByTimestamp_sorted (l : List AudioHistoryItem) :
    List.Sorted byTimestamp (sortByTimestamp l) :=
  List.sorted_insertionSort byTimestamp l

theorem mem_delete {store : List AudioHistoryItem} {i : String} {e : AudioHistoryItem} :
    e ∈ delete store i ↔ e ∈ store ∧ e.id ≠ i := by
  simp [delete]

theorem delete_eq_self {store : List AudioHistoryItem} {i : String}
    (h : ∀ e ∈ store, e.id ≠ i) : delete store i = store :=
  List.filter_eq_self.mpr (fun e he => by simpa using h e he)

theorem length_delete_le (store : List AudioHistoryItem) (i : String) :
    (delete store i).length ≤ store.length :=
  store.length_filter_le _

theorem length_delete_of_mem :
    ∀ (store : List AudioHistoryItem) (m : AudioHistoryItem),
      (store.map AudioHistoryItem.id).Nodup → m ∈ store →
      (delete store m.id).length + 1 = store.length := by
  intro store
  induction store with
  | nil => intro m _ hm; cases hm
  | cons y ys ih =>
    intro m hn hm
    rw [List.map_cons, List.nodup_cons] at hn
    rcases List.mem_cons.mp hm with rfl | hm2
    · have hys : delete ys m.id = ys := by
        apply delete_eq_self
        intro e he2 hcontra
        exact hn.1 (hcontra ▸ List.mem_map_of_mem AudioHistoryItem.id he2)
      have hstep : delete (m :: ys) m.id = delete ys m.id := by
        simp [delete]
      rw [hstep, hys]
      simp
    · have hne : y.id ≠ m.id := by
        intro hcontra
        exact hn.1 (hcontra ▸ List.mem_map_of_mem AudioHistoryItem.id hm2)
      have hstep : delete (y :: ys) m.id = y :: delete ys m.id := by
        simp [delete, hne]
      rw [hstep]
      have := ih m hn.2 hm2
      simp only [List.length_cons]
      omega

theorem length_put_le (store : List AudioHistoryItem) (item : AudioHistoryItem) :
    (put store item).length ≤ store.length + 1 := by
  simp only [put, List.length_append, List.length_cons, List.length_nil]
  have := length_delete_le store item.id
  omega

theorem add_eq_of_length_eq_max (store : List AudioHistoryItem) (item : AudioHistoryItem)
    (hlen : store.length = 30) :
    ∃ m rest, sortByTimestamp store = m :: rest ∧
      add store item = put (delete store m.id) item := by
  cases hS : sortByTimestamp store with
  | nil =>
    exfalso
    have hp := (sortByTimestamp_perm store).length_eq
    rw [hS, hlen] at hp
    cases hp
  | cons m rest =>
    refine ⟨m, rest, rfl, ?_⟩
    simp only [add, MAX_ENTRIES, hlen, hS]
    norm_num

theorem add_eq_of_length_lt (store : List AudioHistoryItem) (item : AudioHistoryItem)
    (hlen : store.length < 30) :
    add store item = put store item := by
  simp only [add, MAX_ENTRIES]
  rw [if_neg (by omega)]

/-- C4: inserting an entry with a fresh id into a cache holding exactly 30
entries with pairwise distinct ids and timestamps evicts exactly the single
oldest-by-timestamp entry and no other, leaving the cache at exactly 30
entries with the new entry present. -/
theorem add_evicts_single_oldest (store : List AudioHistoryItem) (item : AudioHistoryItem)
    (hlen : store.length = 30)
    (hid : (store.map AudioHistoryItem.id).Nodup)
    (hts : (store.map AudioHistoryItem.timestamp).Nodup)
    (hfresh : item.id ∉ store.map AudioHistoryItem.id) :
    ∃ m ∈ store,
      (∀ f ∈ store, f ≠ m → m.timestamp < f.timestamp) ∧
      m ∉ add store item ∧
      (∀ e ∈ store, e ≠ m → e ∈ add store item) ∧
      item ∈ add store item ∧
      (add store item).length = 30 := by
  obtain ⟨m, rest, hS, hadd⟩ := add_eq_of_length_eq_max store item hlen
  have hperm := sortByTimestamp_perm store
  have hmmem : m ∈ store := hperm.mem_iff.mp (hS ▸ List.mem_cons_self m rest)
  have hmin : ∀ f ∈ store, m.timestamp ≤ f.timestamp := by
    intro f hf
    have hfs : f ∈ sortByTimestamp store := hperm.mem_iff.mpr hf
    rw [hS] at hfs
    rcases List.mem_cons.mp hfs with rfl | hfr
    · exact Nat.le_refl _
    · have hsorted := sortByTimestamp_sorted store
      rw [hS] at hsorted
      exact (List.sorted_cons.mp hsorted).1 f hfr
  have hinjTs := List.inj_on_of_nodup_map hts
  have hinjId := List.inj_on_of_nodup_map hid
  have haddEq : add store item = delete store m.id ++ [item] := by
    rw [hadd]
    show delete (delete store m.id) item.id ++ [item] = _
    have hall : ∀ e ∈ delete store m.id, e.id ≠ item.id := by
      intro e he hc
      exact hfresh (hc ▸ List.mem_map_of_mem AudioHistoryItem.id (mem_delete.mp he).1)
    rw [delete_eq_self hall]
  refine ⟨m, hmmem, ?_, ?_, ?_, ?_, ?_⟩
  · intro f hf hne
    refine Nat.lt_of_le_of_ne (hmin f hf) ?_
    intro hc
    exact hne (hinjTs hf hmmem hc.symm)
  · rw [haddEq]
    intro hc
    rcases List.mem_append.mp hc with hc1 | hc2
    · exact (mem_delete.mp hc1).2 rfl
    · rw [List.mem_singleton] at hc2
      exact hfresh (hc2 ▸ List.mem_map_of_mem AudioHistoryItem.id hmmem)
  · intro e he hne
    rw [haddEq]
    refine List.mem_append_left _ (mem_delete.mpr ⟨he, ?_⟩)
    intro hc
    exact hne (hinjId he hmmem hc)
  · rw [haddEq]
    exact List.mem_append_right _ (List.mem_singleton_self item)
  · rw [haddEq, List.length_append, List.length_singleton]
    have := length_delete_of_mem store m hid hmmem
    omega

/-- Witness for C4 at a concrete 30-entry cache: entries with ids `"0".."29"`
and timestamps `0..29`, inserting a fresh entry `⟨"new", 100⟩`. -/
theorem add_evicts_single_oldest_witness :
    ∃ m ∈ (List.range 30).map (fun n => AudioHistoryItem.mk (toString n) n),
      (∀ f ∈ (List.range 30).map (fun n => AudioHistoryItem.mk (toString n) n),
        f ≠ m → m.timestamp < f.timestamp) ∧
      m ∉ add ((List.range 30).map (fun n => AudioHistoryItem.mk (toString n) n))
          (AudioHistoryItem.mk "new" 100) ∧
      (∀ e ∈ (List.range 30).map (fun n => AudioHistoryItem.mk (toString n) n),
        e ≠ m → e ∈ add ((List.range 30).map (fun n => AudioHistoryItem.mk (toString n) n))
          (AudioHistoryItem.mk "new" 100)) ∧
      AudioHistoryItem.mk "new" 100 ∈
        add ((List.range 30).map (fun n => AudioHistoryItem.mk (toString n) n))
          (AudioHistoryItem.mk "new" 100) ∧
      (add ((List.range 30).map (fun n => AudioHistoryItem.mk (toString n) n))
          (AudioHistoryItem.mk "new" 100)).length = 30 :=
  add_evicts_single_oldest _ _ (by decide) (by decide) (by decide) (by decide)

/-- C9: on a cache state with pairwise distinct timestamps, `getAll` returns
exactly the stored entries (a permutation of the store) sorted by creation
timestamp in strictly descending order. -/
theorem getAll_most_recent_first (store : List AudioHistoryItem)
    (hts : (store.map AudioHistoryItem.timestamp).Nodup) :
    List.Perm (getAll store) store ∧
    (getAll store).Pairwise (fun a b => b.timestamp < a.timestamp) := by
  constructor
  · exact ((sortByTimestamp store).reverse_perm).trans (sortByTimestamp_perm store)
  · have hsorted : (sortByTimestamp store).Pairwise byTimestamp :=
      sortByTimestamp_sorted store
    have hnd : ((sortByTimestamp store).map AudioHistoryItem.timestamp).Nodup :=
      (((sortByTimestamp_perm store).map AudioHistoryItem.timestamp).nodup_iff).mpr hts
    have hne : (sortByTimestamp store).Pairwise
        (fun a b => a.timestamp ≠ b.timestamp) :=
      List.pairwise_map.mp hnd
    have hlt : (sortByTimestamp store).Pairwise
        (fun a b => a.timestamp < b.timestamp) :=
      (hsorted.and hne).imp (fun h => Nat.lt_of_le_of_ne h.1 h.2)
    exact List.pairwise_reverse.mpr hlt

/-- Witness for C9 at a concrete three-entry cache. -/
theorem getAll_most_recent_first_witness :
    List.Perm (getAll [AudioHistoryItem.mk "a" 1, AudioHistoryItem.mk "b" 3,
        AudioHistoryItem.mk "c" 2])
      [AudioHistoryItem.mk "a" 1, AudioHistoryItem.mk "b" 3, AudioHistoryItem.mk "c" 2] ∧
    (getAll [AudioHistoryItem.mk "a" 1, AudioHistoryItem.mk "b" 3,
        AudioHistoryItem.mk "c" 2]).Pairwise (fun a b => b.timestamp < a.timestamp) :=
  getAll_most_recent_first _ (by decide)

/-- C10: on a cache state with pairwise distinct ids holding at most 30
entries, every operation leaves at most 30 entries: `add` evicts oldest
entries first whenever the pre-insert count is at or above capacity (and may
leave fewer than 30 when the inserted id already exists, since `put`
replaces), `delete` only shrinks the store, and `clear` empties it. -/
theorem cache_capacity_invariant (store : List AudioHistoryItem)
    (item : AudioHistoryItem) (i : String)
    (hid : (store.map AudioHistoryItem.id).Nodup)
    (hcap : store.length ≤ 30) :
    (add store item).length ≤ 30 ∧
    (delete store i).length ≤ 30 ∧
    (clear store).length = 0 := by
  refine ⟨?_, Nat.le_trans (length_delete_le store i) hcap, rfl⟩
  by_cases h30 : store.length = 30
  · obtain ⟨m, rest, hS, hadd⟩ := add_eq_of_length_eq_max store item h30
    have hmmem : m ∈ store :=
      (sortByTimestamp_perm store).mem_iff.mp (hS ▸ List.mem_cons_self m rest)
    have h1 := length_delete_of_mem store m hid hmmem
    have h2 := length_put_le (delete store m.id) item
    rw [hadd]
    omega
  · rw [add_eq_of_length_lt store item (by omega)]
    have := length_put_le store item
    omega

/-- Witness for C10 at a concrete full cache, inserting an entry whose id
already exists and deleting an existing id. -/
theorem cache_capacity_invariant_witness :
    (add ((List.range 30).map (fun n => AudioHistoryItem.mk (toString n) n))
        (AudioHistoryItem.mk "5" 99)).length ≤ 30 ∧
    (delete ((List.range 30).map (fun n => AudioHistoryItem.mk (toString n) n))
        "3").length ≤ 30 ∧
    (clear ((List.range 30).map (fun n => AudioHistoryItem.mk (toString n) n))).length = 0 :=
  cache_capacity_invariant _ _ _ (by decide) (by decide)

/-- C5 (code evaluation): when the first underlying `put` signals
`QuotaExceededError`, `add` performs exactly one `put` attempt, clears the
whole store, and surfaces the distinct quota message — even though the
oracle says a second (retried) attempt would have succeeded. -/
theorem addFallible_no_retry_on_quota :
    addFallible [AudioHistoryItem.mk "a" 1] (AudioHistoryItem.mk "b" 2)
        (fun n => if n = 0 then some DomErr.quotaExceeded else none)
      = (Except.error AddErr.quotaMessage, [], 1) ∧
    (fun n => if n = 0 then some DomErr.quotaExceeded else none) 1 = none := by
  constructor <;> rfl

end AudioHistoryDB

namespace UseAudioHistory

theorem mkUrl_length (n : Nat) : (mkUrl n).length = 11 + n := by
  simp [mkUrl, String.length_append]
  rfl

theorem mkUrl_inj {a b : Nat} (h : mkUrl a = mkUrl b) : a = b := by
  have := congrArg String.length h
  rw [mkUrl_length, mkUrl_length] at this
  omega

theorem revokeExistingFor_allCreated (item : AudioItem) (st : UrlState) :
    (revokeExistingFor item st).allCreated = st.allCreated := by
  unfold revokeExistingFor
  split
  · split <;> rfl
  · rfl

theorem revokeExistingFor_nextUrl (item : AudioItem) (st : UrlState) :
    (revokeExistingFor item st).nextUrl = st.nextUrl := by
  unfold revokeExistingFor
  split
  · split <;> rfl
  · rfl

theorem revokeExistingFor_perm (item : AudioItem) (st : UrlState) :
    List.Perm
      ((revokeExistingFor item st).revoked ++ (revokeExistingFor item st).createdUrls)
      (st.revoked ++ st.createdUrls) := by
  unfold revokeExistingFor
  split
  · cases hf : st.createdUrls.find? (fun url => jsIncludes url item.id) with
    | none => simp [hf]
    | some existingUrl =>
      simp only [hf]
      have hmem : existingUrl ∈ st.createdUrls := List.mem_of_find?_eq_some hf
      show List.Perm ((st.revoked ++ [existingUrl]) ++ st.createdUrls.erase existingUrl)
        (st.revoked ++ st.createdUrls)
      rw [List.append_assoc]
      exact List.Perm.append_left st.revoked
        (List.singleton_append ▸ (List.perm_cons_erase hmem).symm)
  · exact List.Perm.refl _

theorem urlInv_trackNewUrl (st : UrlState) (h : urlInv st) :
    urlInv (trackNewUrl st).2 := by
  obtain ⟨hperm, hnd, hbound⟩ := h
  have hnotmem : mkUrl st.nextUrl ∉ st.allCreated := by
    intro hc
    obtain ⟨k, hk, hu⟩ := hbound _ hc
    have := mkUrl_inj hu
    omega
  refine ⟨?_, ?_, ?_⟩
  · show List.Perm (st.revoked ++ (st.createdUrls ++ [mkUrl st.nextUrl]))
      (st.allCreated ++ [mkUrl st.nextUrl])
    rw [← List.append_assoc]
    exact hperm.append_right _
  · show (st.allCreated ++ [mkUrl st.nextUrl]).Nodup
    simp [List.nodup_append, hnd, hnotmem]
  · show ∀ u ∈ st.allCreated ++ [mkUrl st.nextUrl], ∃ k, k < st.nextUrl + 1 ∧ u = mkUrl k
    intro u hu
    rcases List.mem_append.mp hu with hu1 | hu2
    · obtain ⟨k, hk, huk⟩ := hbound u hu1
      exact ⟨k, by omega, huk⟩
    · rw [List.mem_singleton] at hu2
      exact ⟨st.nextUrl, by omega, hu2⟩

theorem urlInv_getAudioUrl (item : AudioItem) (st : UrlState) (h : urlInv st) :
    urlInv (getAudioUrl item st).2 := by
  unfold getAudioUrl
  split
  · exact h
  · show urlInv (trackNewUrl (revokeExistingFor item st)).2
    apply urlInv_trackNewUrl
    obtain ⟨hperm, hnd, hbound⟩ := h
    refine ⟨?_, ?_, ?_⟩
    · rw [revokeExistingFor_allCreated]
      exact (revokeExistingFor_perm item st).trans hperm
    · rw [revokeExistingFor_allCreated]; exact hnd
    · rw [revokeExistingFor_allCreated, revokeExistingFor_nextUrl]; exact hbound

theorem urlInv_initState : urlInv initState :=
  ⟨List.Perm.refl [], List.nodup_nil, fun u hu => absurd hu (List.not_mem_nil u)⟩

theorem urlInv_runCalls (items : List AudioItem) : urlInv (runCalls items) := by
  unfold runCalls
  have hgen : ∀ (its : List AudioItem) (st : UrlState), urlInv st →
      urlInv (its.foldl (fun st it => (getAudioUrl it st).2) st) := by
    intro its
    induction its with
    | nil => intro st hst; exact hst
    | cons it rest ih =>
      intro st hst
      exact ih _ (urlInv_getAudioUrl it st hst)
  exact hgen items initState urlInv_initState

/-- C7: over any sequence of `getAudioUrl` calls followed by the unmount
cleanup, the revocation log is a permutation of the creation log, no URL was
created twice, and hence every object URL created during the component's
lifetime is revoked exactly once by teardown. -/
theorem every_url_released_exactly_once (items : List AudioItem) :
    List.Perm (unmount (runCalls items)).revoked (unmount (runCalls items)).allCreated ∧
    (unmount (runCalls items)).allCreated.Nodup ∧
    ∀ u ∈ (unmount (runCalls items)).allCreated,
      (unmount (runCalls items)).revoked.count u = 1 := by
  obtain ⟨hperm, hnd, -⟩ := urlInv_runCalls items
  have hperm2 : List.Perm (unmount (runCalls items)).revoked
      (unmount (runCalls items)).allCreated := hperm
  refine ⟨hperm2, hnd, ?_⟩
  intro u hu
  rw [hperm2.count_eq u]
  exact List.count_eq_one_of_mem hnd hu

/-- Witness for C7: one call with a blob-carrying item; the single created
URL is revoked exactly once at teardown. -/
theorem every_url_released_exactly_once_witness :
    (unmount (runCalls [AudioItem.mk "tts-1-a" true])).revoked.count (mkUrl 0) = 1 :=
  (every_url_released_exactly_once [AudioItem.mk "tts-1-a" true]).2.2 (mkUrl 0) (by decide)

/-- C6 (code evaluation): two successive `getAudioUrl` calls for the same
blob-carrying entry leave two object URLs outstanding for that entry and an
empty revocation log — the revoke-any-existing-URL guard never fires, because
`createdUrlsRef.current.has(item.id)` tests the entry id against a set that
only ever contains `blob:` URLs. -/
theorem getAudioUrl_leaves_two_outstanding :
    (getAudioUrl (AudioItem.mk "tts-1-a" true)
        (getAudioUrl (AudioItem.mk "tts-1-a" true) initState).2).2.revoked = [] ∧
    (getAudioUrl (AudioItem.mk "tts-1-a" true)
        (getAudioUrl (AudioItem.mk "tts-1-a" true) initState).2).2.createdUrls
      = [mkUrl 0, mkUrl 1] := by
  constructor <;> rfl

end UseAudioHistory

namespace UseStreamingAudio

/-- C8: calling `stopStream` from any state whatsoever (Idle, Loading,
Playing, or Error) halts the currently rendering source node, cancels any
pending read on the stream reader, aborts the controller, clears the queued
playback units, and leaves the buffer idle: not loading, not playing, empty
queue, all refs dropped; the side effects on the source node and reader are
actually performed whenever those refs were set. -/
theorem stopStream_from_any_state (s : StreamState) :
    isIdle (stopStream s).1 = true ∧
    (stopStream s).1.isPlayingRef = false ∧
    (stopStream s).1.streamReader = none ∧
    (stopStream s).1.sourceNode = none ∧
    (stopStream s).1.abortController = none ∧
    (stopStream s).1.bufferQueue = [] ∧
    (∀ n, s.sourceNode = some n → StopAction.haltSource n ∈ (stopStream s).2) ∧
    (∀ r, s.streamReader = some r → StopAction.cancelReader r ∈ (stopStream s).2) := by
  refine ⟨rfl, rfl, rfl, rfl, rfl, rfl, ?_, ?_⟩
  · intro n hn
    simp [stopStream, hn]
  · intro r hr
    simp [stopStream, hr]

/-- Witness for C8 at a concrete Playing-with-pending-read state. -/
theorem stopStream_from_any_state_witness :
    isIdle (stopStream (StreamState.mk true true (some "boom") (some 5) (some 7)
        (some 9) [[1]] true)).1 = true ∧
    StopAction.haltSource 5 ∈ (stopStream (StreamState.mk true true (some "boom")
        (some 5) (some 7) (some 9) [[1]] true)).2 ∧
    StopAction.cancelReader 7 ∈ (stopStream (StreamState.mk true true (some "boom")
        (some 5) (some 7) (some 9) [[1]] true)).2 :=
  ⟨(stopStream_from_any_state _).1,
   (stopStream_from_any_state _).2.2.2.2.2.2.1 5 rfl,
   (stopStream_from_any_state _).2.2.2.2.2.2.2 7 rfl⟩

/-- C1 (code evaluation): on a two-chunk stream, `processWavData` reads both
chunks and the terminal `done` before the single `decodeAudioData` call and
the first render; in particular every chunk arrival, the final one included,
strictly precedes the first rendered `PlaybackUnit`, refuting progressive
start. -/
theorem processWavData_renders_only_after_final_chunk :
    processWavData [[1], [2]]
      = [StreamEv.readChunk [1], StreamEv.readChunk [2], StreamEv.readDone,
         StreamEv.decode [1, 2], StreamEv.render [1, 2]] ∧
    ((processWavData [[1], [2]]).takeWhile (fun e => !isRender e)).countP isRead = 2 ∧
    (processWavData [[1], [2]]).countP isRead = 2 := by
  refine ⟨rfl, rfl, rfl⟩

end UseStreamingAudio

namespace BatchOrchestrator

theorem applyCompletion_length (exec : α → BatchTTSResult) (jobs : List α)
    (slots : List (Option BatchTTSResult)) (i : Nat) :
    (applyCompletion exec jobs slots i).length = slots.length := by
  unfold applyCompletion
  split <;> simp

theorem foldl_applyCompletion_getElem? (exec : α → BatchTTSResult) (jobs : List α) :
    ∀ (order : List Nat) (slots : List (Option BatchTTSResult)),
      slots.length = jobs.length → ∀ j : Nat,
      (order.foldl (applyCompletion exec jobs) slots)[j]? =
        if j ∈ order ∧ j < jobs.length then some (jobs[j]?.map exec) else slots[j]? := by
  intro order
  induction order with
  | nil =>
    intro slots _ j
    simp
  | cons i rest ih =>
    intro slots hlen j
    rw [List.foldl_cons]
    have hlen2 : (applyCompletion exec jobs slots i).length = jobs.length := by
      rw [applyCompletion_length]; exact hlen
    rw [ih _ hlen2 j]
    by_cases hjr : j ∈ rest ∧ j < jobs.length
    · rw [if_pos hjr, if_pos ⟨List.mem_cons_of_mem i hjr.1, hjr.2⟩]
    · rw [if_neg hjr]
      cases hji : jobs[i]? with
      | none =>
        have hni : ¬ i < jobs.length := by
          intro hc
          rw [List.getElem?_eq_getElem hc] at hji
          cases hji
        have hcond : ¬ (j ∈ i :: rest ∧ j < jobs.length) := by
          intro hc
          rcases List.mem_cons.mp hc.1 with rfl | hmem
          · exact hni hc.2
          · exact hjr ⟨hmem, hc.2⟩
        rw [if_neg hcond]
        simp only [applyCompletion, hji]
      | some job =>
        have hi : i < jobs.length := by
          by_contra hc
          rw [List.getElem?_eq_none (Nat.le_of_not_lt hc)] at hji
          cases hji
        simp only [applyCompletion, hji]
        rw [List.getElem?_set]
        by_cases hij : i = j
        · subst hij
          rw [if_pos rfl, if_pos (hlen ▸ hi), if_pos ⟨List.mem_cons_self i rest, hi⟩, hji]
          rfl
        · rw [if_neg hij]
          have hcond : ¬ (j ∈ i :: rest ∧ j < jobs.length) := by
            intro hc
            rcases List.mem_cons.mp hc.1 with rfl | hmem
            · exact hij rfl
            · exact hjr ⟨hmem, hc.2⟩
          rw [if_neg hcond]

theorem runOrder_eq (exec : α → BatchTTSResult) (jobs : List α) (order : List Nat)
    (hperm : List.Perm order (List.range jobs.length)) :
    runOrder exec jobs order = jobs.map (fun a => some (exec a)) := by
  apply List.ext_getElem?
  intro j
  unfold runOrder
  rw [foldl_applyCompletion_getElem? exec jobs order _ (by simp) j]
  have hmem : j ∈ order ↔ j < jobs.length := by
    rw [hperm.mem_iff]
    exact List.mem_range
  by_cases hj : j < jobs.length
  · rw [if_pos ⟨hmem.mpr hj, hj⟩, List.getElem?_map, List.getElem?_eq_getElem hj]
    rfl
  · rw [if_neg (fun hc => hj hc.2)]
    rw [List.getElem?_eq_none (by simpa using Nat.le_of_not_lt hj),
      List.getElem?_eq_none (by simpa using Nat.le_of_not_lt hj)]

/-- C2: for every batch of size 1 to 10 and every completion order of its
jobs, the orchestrator accepts the batch and returns one outcome per input
job in exactly the input order (the outcome list equals the jobs mapped
through per-job execution, independent of `order`), with
`completed_count + failed_count` equal to the batch size. -/
theorem runBatch_counts_and_order (exec : α → BatchTTSResult) (jobs : List α)
    (order : List Nat)
    (hperm : List.Perm order (List.range jobs.length))
    (hlo : 1 ≤ jobs.length) (hhi : jobs.length ≤ 10) :
    ∃ resp, runBatch exec jobs order = some resp ∧
      resp.results = jobs.map exec ∧
      resp.completed_count + resp.failed_count = jobs.length := by
  have hres : (runOrder exec jobs order).filterMap id = jobs.map exec := by
    rw [runOrder_eq exec jobs order hperm, List.filterMap_map]
    exact congrFun (List.filterMap_eq_map exec) jobs
  refine ⟨BatchTTSResponse.mk ((runOrder exec jobs order).filterMap id)
      (((runOrder exec jobs order).filterMap id).countP (fun r => r.success))
      (((runOrder exec jobs order).filterMap id).countP (fun r => !r.success)), ?_, ?_, ?_⟩
  · unfold runBatch
    rw [if_neg (by omega)]
  · exact hres
  · show ((runOrder exec jobs order).filterMap id).countP (fun r => r.success) +
      ((runOrder exec jobs order).filterMap id).countP (fun r => !r.success) = jobs.length
    rw [hres]
    have hcnt := List.length_eq_countP_add_countP (fun r : BatchTTSResult => r.success)
      (jobs.map exec)
    rw [List.length_map] at hcnt
    rw [← hcnt.symm]
    congr 1
    apply List.countP_congr
    intro r _
    simp

/-- Witness for C2: a two-job batch ("Hello" and an empty text that fails
validation) whose jobs complete in reverse order. -/
theorem runBatch_counts_and_order_witness :
    ∃ resp,
      runBatch (fun t : String =>
          BatchTTSResult.mk (t != "") none (if t == "" then some "empty" else none) none)
        ["Hello", ""] [1, 0] = some resp ∧
      resp.results = ["Hello", ""].map (fun t : String =>
          BatchTTSResult.mk (t != "") none (if t == "" then some "empty" else none) none) ∧
      resp.completed_count + resp.failed_count = (["Hello", ""] : List String).length :=
  runBatch_counts_and_order _ ["Hello", ""] [1, 0] (by decide) (by decide) (by decide)

end BatchOrchestrator

namespace AdmissionLimiter

theorem semStep_bounded {n n1 : Nat} {e : SemEv} (h : semStep n e = some n1)
    (hn : n ≤ K) : n1 ≤ K := by
  cases e with
  | acquire p =>
    simp only [semStep] at h
    by_cases hlt : n < K
    · rw [if_pos hlt] at h
      injection h with h2
      omega
    · rw [if_neg hlt] at h
      cases h
  | release p =>
    simp only [semStep] at h
    by_cases hpos : 0 < n
    · rw [if_pos hpos] at h
      injection h with h2
      omega
    · rw [if_neg hpos] at h
      cases h

theorem semStates_bounded :
    ∀ (evs : List SemEv) (n : Nat), n ≤ K → ∀ m ∈ semStates n evs, m ≤ K := by
  intro evs
  induction evs with
  | nil =>
    intro n hn m hm
    unfold semStates at hm
    rw [List.mem_singleton] at hm
    omega
  | cons e es ih =>
    intro n hn m hm
    unfold semStates at hm
    cases hstep : semStep n e with
    | none =>
      rw [hstep] at hm
      simp only [List.mem_singleton] at hm
      omega
    | some n1 =>
      rw [hstep] at hm
      rcases List.mem_cons.mp hm with rfl | hm2
      · exact hn
      · exact ih n1 (semStep_bounded hstep hn) m hm2

/-- C3: along every event sequence of acquires and releases from both the
batch and the single-stream path, every in-flight count the shared admission
limiter ever realizes, starting from zero, is at most `K` = 2. -/
theorem inflight_never_exceeds_K (evs : List SemEv) (m : Nat)
    (hm : m ∈ semStates 0 evs) : m ≤ K :=
  semStates_bounded evs 0 (Nat.zero_le K) m hm

/-- Witness for C3: a batch acquire, a stream acquire and a batch release
interleaved; the realized count 2 is within the limit. -/
theorem inflight_never_exceeds_K_witness :
    2 ∈ semStates 0 [SemEv.acquire Path.batch, SemEv.acquire Path.stream,
        SemEv.release Path.batch] ∧
    2 ≤ K :=
  ⟨by decide,
   inflight_never_exceeds_K [SemEv.acquire Path.batch, SemEv.acquire Path.stream,
     SemEv.release Path.batch] 2 (by decide)⟩

end AdmissionLimiter
